import Mathlib

/-!
A shallow embedding of `src/aux_gate.rs` (the Sirius auxiliary gate):
the fused gate registered by `AuxChip::configure`, and the
`random_linear_combination` gadget together with a model of the halo2
region backend (advice/fixed assignment, equality constraints, a
monotone row cursor, and fallible backend calls driven by an oracle).
The symbolic polynomial engine (`Expression`, `expand`, `fold_transform`,
`coeff_of`, rendering) is not part of this repository's sources; where a
claim needs it, its model is marked `Modelled from the spec:`.
-/

namespace Sirius

/-- Shallow embedding of the halo2 `plonk::Expression` nodes produced by
`configure`: cell queries carry the column index and the rotation
(relative row offset) they were queried at. -/
inductive HExpr (F : Type) where
  | const : F → HExpr F
  | fixedQ : Nat → Int → HExpr F
  | adviceQ : Nat → Int → HExpr F
  | instQ : Nat → Int → HExpr F
  | neg : HExpr F → HExpr F
  | add : HExpr F → HExpr F → HExpr F
  | mul : HExpr F → HExpr F → HExpr F
  | scaled : HExpr F → F → HExpr F
deriving DecidableEq, Repr

/-- An assignment of field values to every (column, rotation) query,
split by column kind exactly as halo2 splits fixed/advice/instance. -/
structure ColAssign (F : Type) where
  fixAt : Nat → Int → F
  advAt : Nat → Int → F
  instAt : Nat → Int → F

/-- Evaluation of an embedded gate expression under a cell assignment. -/
def evalH {F : Type} [Field F] (σ : ColAssign F) : HExpr F → F
  | .const c => c
  | .fixedQ c r => σ.fixAt c r
  | .adviceQ c r => σ.advAt c r
  | .instQ c r => σ.instAt c r
  | .neg e => -evalH σ e
  | .add a b => evalH σ a + evalH σ b
  | .mul a b => evalH σ a * evalH σ b
  | .scaled e c => evalH σ e * c

/-- `true` iff every cell query in the expression uses rotation 0
(the current row). -/
def rotCur {F : Type} : HExpr F → Bool
  | .const _ => true
  | .fixedQ _ r => r = 0
  | .adviceQ _ r => r = 0
  | .instQ _ r => r = 0
  | .neg e => rotCur e
  | .add a b => rotCur a && rotCur b
  | .mul a b => rotCur a && rotCur b
  | .scaled e _ => rotCur e

/-- Total degree of the gate polynomial in the witness (advice/instance)
queries; fixed-column queries are selectors/constants of the circuit and
count as degree 0. -/
def advDeg {F : Type} : HExpr F → Nat
  | .const _ => 0
  | .fixedQ _ _ => 0
  | .adviceQ _ _ => 1
  | .instQ _ _ => 1
  | .neg e => advDeg e
  | .add a b => max (advDeg a) (advDeg b)
  | .mul a b => advDeg a + advDeg b
  | .scaled e _ => advDeg e

/-- The column handles of `AuxConfig` from the source, with columns
identified by their allocation index (advice and fixed spaces separate). -/
structure AuxConfig where
  state : List Nat
  input : Nat
  out : Nat
  q_m : Nat
  q_1 : List Nat
  q_5 : List Nat
  q_i : Nat
  q_o : Nat
  rc : Nat
deriving DecidableEq, Repr

/-- `pow_5` from `configure`: `v2 = v*v; v2 * v2 * v` with halo2's
left-associated products. -/
def pow_5 {F : Type} (v : HExpr F) : HExpr F :=
  .mul (.mul (.mul v v) (.mul v v)) v

/-- The single polynomial of the gate `configure` registers, built
exactly as in the source: `init_term = q_m*s[0]*s[1] + q_i*input + rc +
q_o*out`, then a fold adding `q_1[k]*s[k] + q_5[k]*s[k]^5` for each k. -/
def gate_poly (F : Type) [Field F] (cfg : AuxConfig) : HExpr F :=
  let state := cfg.state.map (fun c => HExpr.adviceQ c 0)
  let inp := HExpr.adviceQ cfg.input 0
  let outq := HExpr.adviceQ cfg.out 0
  let q1 := cfg.q_1.map (fun c => HExpr.fixedQ c 0)
  let q5 := cfg.q_5.map (fun c => HExpr.fixedQ c 0)
  let qm := HExpr.fixedQ cfg.q_m 0
  let qi := HExpr.fixedQ cfg.q_i 0
  let qo := HExpr.fixedQ cfg.q_o 0
  let rcq := HExpr.fixedQ cfg.rc 0
  let init : HExpr F :=
    .add (.add (.add (.mul (.mul qm (state.getD 0 (.const 0)))
      (state.getD 1 (.const 0))) (.mul qi inp)) rcq) (.mul qo outq)
  ((state.zip q1).zip q5).foldl
    (fun acc x => .add acc (.add (.mul x.1.2 x.1.1) (.mul x.2 (pow_5 x.1.1)))) init

/-- The two ways `configure` can panic: the `assert!(T>=2)` width check,
or an exhausted column iterator (`next().unwrap()` on `None`). -/
inductive CfgPanic where
  | widthAssert
  | columnsExhausted
deriving DecidableEq, Repr

/-- `AuxChip::configure`: asserts `T >= 2` first, then allocates `T+2`
advice and `2T+4` fixed columns in source order (state, input, out;
q_1, q_5, q_m, q_i, q_o, rc) and registers one gate holding the single
polynomial `gate_poly`. -/
def configure (F : Type) [Field F] (T : Nat) (adv fix : List Nat) :
    Except CfgPanic (AuxConfig × List (List (HExpr F))) :=
  if T < 2 then .error .widthAssert
  else if adv.length < T + 2 ∨ fix.length < 2 * T + 4 then .error .columnsExhausted
  else
    let cfg : AuxConfig :=
      { state := adv.take T
        input := adv.getD T 0
        out := adv.getD (T + 1) 0
        q_m := fix.getD (2 * T) 0
        q_1 := fix.take T
        q_5 := (fix.drop T).take T
        q_i := fix.getD (2 * T + 1) 0
        q_o := fix.getD (2 * T + 2) 0
        rc := fix.getD (2 * T + 3) 0 }
    .ok (cfg, [[gate_poly F cfg]])

/-! ## The region backend model used by `random_linear_combination` -/

/-- Backend errors are opaque; we identify them by a numeric code. -/
abbrev Err := Nat

/-- An oracle deciding, per backend call (numbered in call order),
whether that call succeeds (`none`) or fails with a given error. -/
abbrev Oracle := Nat → Option Err

/-- The oracle under which every backend call succeeds. -/
def happy : Oracle := fun _ => none

/-- An `AssignedCell`: the advice column and row it lives in plus the
value assigned to it. -/
structure ACell (F : Type) where
  col : Nat
  row : Nat
  val : F
deriving DecidableEq, Repr

/-- The `RegionCtx` state: the row cursor `offset`, the number of
backend calls made so far, and the traces of advice assignments, fixed
assignments and equality constraints (most recent first). -/
structure RegionCtx (F : Type) where
  offset : Nat
  calls : Nat
  advice : List (Nat × Nat × F)
  fixedVals : List (Nat × Nat × F)
  eqs : List ((Nat × Nat) × (Nat × Nat))
deriving DecidableEq, Repr

/-- `RegionCtx::assign_advice`: fallible; on success records the value
at (column, current offset) and returns the assigned cell. -/
def assign_advice {F : Type} (o : Oracle) (ctx : RegionCtx F) (col : Nat) (v : F) :
    Except Err (ACell F × RegionCtx F) :=
  match o ctx.calls with
  | some e => .error e
  | none => .ok (⟨col, ctx.offset, v⟩,
      { ctx with calls := ctx.calls + 1, advice := (col, ctx.offset, v) :: ctx.advice })

/-- `RegionCtx::assign_fixed`: fallible; on success records the value at
(fixed column, current offset). -/
def assign_fixed {F : Type} (o : Oracle) (ctx : RegionCtx F) (col : Nat) (v : F) :
    Except Err (ACell F × RegionCtx F) :=
  match o ctx.calls with
  | some e => .error e
  | none => .ok (⟨col, ctx.offset, v⟩,
      { ctx with calls := ctx.calls + 1, fixedVals := (col, ctx.offset, v) :: ctx.fixedVals })

/-- `RegionCtx::constrain_equal`: fallible; on success records the pair
of cells (advice column, row) constrained equal. -/
def constrain_equal {F : Type} (o : Oracle) (ctx : RegionCtx F)
    (c0 c1 : Nat × Nat) : Except Err (RegionCtx F) :=
  match o ctx.calls with
  | some e => .error e
  | none => .ok { ctx with calls := ctx.calls + 1, eqs := (c0, c1) :: ctx.eqs }

/-- `RegionCtx::next`: advance the row cursor by one. -/
def RegionCtx.next {F : Type} (ctx : RegionCtx F) : RegionCtx F :=
  { ctx with offset := ctx.offset + 1 }

/-- The `if out.is_some() { ctx.constrain_equal(rhs.cell(), out.unwrap().cell())? }`
guard: constrain the freshly assigned accumulator cell to the previous
out cell when one exists. -/
def eqGuard {F : Type} (o : Oracle) (ctx : RegionCtx F) (rhs : ACell F) :
    Option (ACell F) → Except Err (RegionCtx F)
  | some c => constrain_equal o ctx (rhs.col, rhs.row) (c.col, c.row)
  | none => .ok ctx

/-- One iteration of the `for i in 1..d` loop body of
`random_linear_combination` (lines 172-192 of the source), given the
already-computed `lhs = terms[d-1-i]` and `rhs_val`: assigns `input`,
`state[1]` (the accumulator), the equality constraint to the previous
out cell when present, `state[0] = r`, the new out value into
`state[1]`, the five selectors, then advances the cursor; each `bind`
is one `?` of the source, propagating the first backend error. -/
def rlcStep {F : Type} [Field F] (o : Oracle) (cfg : AuxConfig)
    (r lhs rhsVal : F) (out : Option (ACell F)) (ctx : RegionCtx F) :
    Except Err (ACell F × RegionCtx F) :=
  (assign_advice o ctx cfg.input lhs).bind fun x1 =>
  (assign_advice o x1.2 (cfg.state.getD 1 0) rhsVal).bind fun x2 =>
  (eqGuard o x2.2 x2.1 out).bind fun ctx3 =>
  (assign_advice o ctx3 (cfg.state.getD 0 0) r).bind fun x4 =>
  (assign_advice o x4.2 (cfg.state.getD 1 0) (lhs + r * rhsVal)).bind fun x5 =>
  (assign_fixed o x5.2 (cfg.q_1.getD 0 0) 1).bind fun x6 =>
  (assign_fixed o x6.2 (cfg.q_1.getD 1 0) 1).bind fun x7 =>
  (assign_fixed o x7.2 cfg.q_i 1).bind fun x8 =>
  (assign_fixed o x8.2 cfg.q_m 1).bind fun x9 =>
  (assign_fixed o x9.2 cfg.q_o (-1)).bind fun x10 =>
  .ok (x5.1, x10.2.next)

/-- Outcome of running the gadget loop: a panic (an `unwrap` of `None`),
a propagated backend error, or normal completion. -/
inductive LoopRes (F : Type) where
  | panic
  | fail (e : Err)
  | done (out : Option (ACell F)) (ctx : RegionCtx F)
deriving DecidableEq, Repr

/-- The `for i in 1..d` loop of `random_linear_combination`, with `n`
iterations remaining and `i` the current (1-based) loop index: computes
`lhs = terms[d-1-i]` and `rhs_val` (`terms[d-i]` when `i = 1`, otherwise
the value of the previous out cell, panicking if it is absent), runs one
step, and threads the new out cell. -/
def rlcLoop {F : Type} [Field F] (o : Oracle) (cfg : AuxConfig)
    (terms : List F) (r : F) :
    Nat → Nat → Option (ACell F) → RegionCtx F → LoopRes F
  | 0, _, out, ctx => .done out ctx
  | n + 1, i, out, ctx =>
    let d := terms.length
    let lhs := terms.getD (d - 1 - i) 0
    let rhsOpt : Option F :=
      if i = 1 then some (terms.getD (d - i) 0) else out.map (fun c => c.val)
    match rhsOpt with
    | none => .panic
    | some rhsVal =>
      match rlcStep o cfg r lhs rhsVal out ctx with
      | .error e => .fail e
      | .ok (newOut, ctx') => rlcLoop o cfg terms r n (i + 1) (some newOut) ctx'

/-- Overall outcome of `random_linear_combination`: panic, a propagated
backend error, or `Ok` of the final accumulator cell (with the final
region state). -/
inductive RlcRes (F : Type) where
  | panic
  | fail (e : Err)
  | ok (c : ACell F) (ctx : RegionCtx F)
deriving DecidableEq, Repr

/-- `AuxChip::random_linear_combination`: runs the loop for `d - 1`
iterations starting at `i = 1` with no accumulator cell, then unwraps
the final accumulator (`out.unwrap()`), panicking when the loop body
never ran. -/
def random_linear_combination {F : Type} [Field F] (o : Oracle) (cfg : AuxConfig)
    (ctx : RegionCtx F) (terms : List F) (r : F) : RlcRes F :=
  match rlcLoop o cfg terms r (terms.length - 1) 1 none ctx with
  | .panic => .panic
  | .fail e => .fail e
  | .done none _ => .panic
  | .done (some c) ctx' => .ok c ctx'

/-- Right-to-left Horner evaluation: seed 0 past the last element, then
`acc = next + r * acc`; on a list `[t0, ..., t_{d-1}]` this yields
`Σ r^i t_i`. Used as the specification-side value. -/
def hornerEval {F : Type} [Field F] (r : F) : List F → F
  | [] => 0
  | t :: ts => t + r * hornerEval r ts

/-- The configured columns for the `T = 2` test instance: advice columns
0..3 and fixed columns 0..7 in declaration order. -/
def cfg2 : AuxConfig :=
  { state := [0, 1], input := 2, out := 3, q_m := 4,
    q_1 := [0, 1], q_5 := [2, 3], q_i := 5, q_o := 6, rc := 7 }

/-- An empty region at offset 0. -/
def ctx0 (F : Type) : RegionCtx F :=
  { offset := 0, calls := 0, advice := [], fixedVals := [], eqs := [] }

/-! ## The symbolic expression engine

The engine itself (`Expression`, `expand`, `fold_transform`, `coeff_of`
and the canonical rendering) lives in a module that is not part of these
sources; only its tests appear in `aux_gate.rs`. The definitions below
are therefore modelled from the spec, validated against the golden
strings of those tests. -/

/-- Modelled from the spec: the engine's `Expression` tree over field
constants and flat variable indices, with variants constant, variable,
sum, product and power (negation and scalar multiplication of the
backend grammar map to products with a constant). The missing code is
the repository's polynomial module. -/
inductive SymExpr (F : Type) where
  | const : F → SymExpr F
  | var : Nat → SymExpr F
  | add : SymExpr F → SymExpr F → SymExpr F
  | mul : SymExpr F → SymExpr F → SymExpr F
  | pow : SymExpr F → Nat → SymExpr F
deriving DecidableEq, Repr

/-- Modelled from the spec: `Expression::from_halo2_expr`, rewriting
every leaf query into one flat variable index using the fixed global
ordering (fixed columns first, then instance, then advice); internal
nodes map structurally. The missing code is the repository's polynomial
module. -/
def from_halo2_expr {F : Type} [Field F] (nf ni : Nat) : HExpr F → SymExpr F
  | .const c => .const c
  | .fixedQ col _ => .var col
  | .instQ col _ => .var (nf + col)
  | .adviceQ col _ => .var (nf + ni + col)
  | .neg e => .mul (.const (-1)) (from_halo2_expr nf ni e)
  | .add a b => .add (from_halo2_expr nf ni a) (from_halo2_expr nf ni b)
  | .mul a b => .mul (from_halo2_expr nf ni a) (from_halo2_expr nf ni b)
  | .scaled e c => .mul (.const c) (from_halo2_expr nf ni e)

/-- Modelled from the spec: the deterministic canonical rendering used
as a golden-output oracle, writing variable `i` as `Z_i` and wrapping
every binary node in parentheses (constants, absent from the translated
gate, as decimal rationals). The missing code is the repository's
polynomial module's Display implementation. -/
def render : SymExpr ℚ → String
  | .const c => toString c
  | .var i => "Z_" ++ toString i
  | .add a b => "(" ++ render a ++ " + " ++ render b ++ ")"
  | .mul a b => "(" ++ render a ++ " * " ++ render b ++ ")"
  | .pow a n => "(" ++ render a ++ "^" ++ toString n ++ ")"

/-- A monomial of the expanded form: a field coefficient and a list of
(variable, exponent) factors (not necessarily merged or sorted;
evaluation and exponent queries sum over the list). -/
structure Mono (F : Type) where
  coeff : F
  pairs : List (Nat × Nat)
deriving DecidableEq, Repr

/-- Modelled from the spec: the monomial-expanded polynomial, a sum of
monomials. The missing code is the repository's polynomial module. -/
abbrev MPoly (F : Type) := List (Mono F)

/-- Product of two monomials. -/
def monoMul {F : Type} [Field F] (a b : Mono F) : Mono F :=
  ⟨a.coeff * b.coeff, a.pairs ++ b.pairs⟩

/-- Product of two expanded polynomials (distributing over sums). -/
def polyMul {F : Type} [Field F] (p q : MPoly F) : MPoly F :=
  p.foldr (fun a acc => q.map (monoMul a) ++ acc) []

/-- Power of an expanded polynomial. -/
def polyPow {F : Type} [Field F] (p : MPoly F) : Nat → MPoly F
  | 0 => [⟨1, []⟩]
  | n + 1 => polyMul p (polyPow p n)

/-- Modelled from the spec: `expand`, rewriting an expression tree into
canonical sum-of-monomials form by distributing products over sums. The
missing code is the repository's polynomial module. -/
def expand {F : Type} [Field F] : SymExpr F → MPoly F
  | .const c => [⟨c, []⟩]
  | .var v => [⟨1, [(v, 1)]⟩]
  | .add a b => expand a ++ expand b
  | .mul a b => polyMul (expand a) (expand b)
  | .pow a n => polyPow (expand a) n

/-- Total degree of a monomial in the witness variables, i.e. those
with index at least `nf` (the fixed variables are shared circuit
constants). -/
def monoWitDeg {F : Type} (nf : Nat) (m : Mono F) : Nat :=
  (m.pairs.filter (fun pr => decide (nf ≤ pr.1))).foldr (fun pr s => pr.2 + s) 0

/-- The homogenization degree: the maximal witness degree over all
monomials of the polynomial. -/
def homDeg {F : Type} (nf : Nat) (p : MPoly F) : Nat :=
  p.foldr (fun m s => max (monoWitDeg nf m) s) 0

/-- The affine substitute for one witness variable under the fold
transform: `X_v + challenge * X_(v+shift)` (copy 1 keeps the original
index, copy 2 lives one full duplicate variable space later). -/
def foldVarSub {F : Type} [Field F] (shift c v : Nat) : MPoly F :=
  [⟨1, [(v, 1)]⟩, ⟨1, [(c, 1), (v + shift, 1)]⟩]

/-- The fold transform of a single monomial: fixed factors are kept,
every witness factor is substituted affinely, and the monomial is
homogenized to degree `k` with the substituted slack variable `u`. -/
def foldMono {F : Type} [Field F] (nf shift c u1 k : Nat) (m : Mono F) : MPoly F :=
  let fixedPairs := m.pairs.filter (fun pr => decide (pr.1 < nf))
  let wits := m.pairs.filter (fun pr => decide (nf ≤ pr.1))
  let base : MPoly F := [⟨m.coeff, fixedPairs⟩]
  let withVars :=
    wits.foldr (fun pr acc => polyMul (polyPow (foldVarSub shift c pr.1) pr.2) acc) base
  polyMul withVars (polyPow (foldVarSub shift c u1) (k - monoWitDeg nf m))

/-- Modelled from the spec: `fold_transform`, given the counts of
fixed/instance/advice variables. Each witness variable `v` is replaced
by `v1 + challenge * v2` with the two copies occupying structurally
identical, disjoint variable spaces of size (instance + advice + 1);
the extra reserved slot per copy is the homogenization (slack) variable
`u`, and each monomial is multiplied by the substituted `u` raised to
the homogenization degree minus its own witness degree — as pinned down
by the golden cross-term strings in the repository's tests. The shared
challenge variable sits at `nf + 2 * (ni + na + 1)`. The missing code is
the repository's polynomial module. -/
def fold_transform {F : Type} [Field F] (meta : Nat × Nat × Nat) (p : MPoly F) : MPoly F :=
  let nf := meta.1
  let ni := meta.2.1
  let na := meta.2.2
  let shift := ni + na + 1
  let u1 := nf + ni + na
  let c := nf + 2 * shift
  let k := homDeg nf p
  p.foldr (fun m acc => foldMono nf shift c u1 k m ++ acc) []

/-- The exponent of variable `v` in a monomial (summed over its factor
list). -/
def expOf {F : Type} (v : Nat) (m : Mono F) : Nat :=
  (m.pairs.filter (fun pr => decide (pr.1 = v))).foldr (fun pr s => pr.2 + s) 0

/-- Modelled from the spec: `coeff_of`, keeping exactly the monomials
whose exponent on the given variable equals the requested power, with
that variable's factor divided out. The missing code is the repository's
polynomial module. -/
def coeff_of {F : Type} (v k : Nat) (p : MPoly F) : MPoly F :=
  (p.filter (fun m => decide (expOf v m = k))).map
    (fun m => ⟨m.coeff, m.pairs.filter (fun pr => decide (pr.1 ≠ v))⟩)

/-- Evaluation of a monomial under a variable assignment. -/
def evalMono {F : Type} [Field F] (σ : Nat → F) (m : Mono F) : F :=
  m.coeff * m.pairs.foldr (fun pr acc => σ pr.1 ^ pr.2 * acc) 1

/-- Evaluation of an expanded polynomial under a variable assignment. -/
def evalPoly {F : Type} [Field F] (σ : Nat → F) (p : MPoly F) : F :=
  p.foldr (fun m acc => evalMono σ m + acc) 0

/-- `101` is prime, so `ZMod 101` is a field; it serves as the concrete
prime field for witnesses and counterexamples (kernel-computable, unlike
`ℚ` whose gcd-normalizing arithmetic the kernel cannot reduce). -/
instance : Fact (Nat.Prime 101) := ⟨by norm_num⟩

/-- The symbolic form of the `T = 2` gate polynomial, translated with
`num_fixed = 8`, `num_instance = 0` as in the tests. -/
def gateSym : SymExpr ℚ := from_halo2_expr 8 0 (gate_poly ℚ cfg2)

/-- The expanded `T = 2` gate polynomial over the concrete field. -/
def baseM : MPoly (ZMod 101) := expand (from_halo2_expr 8 0 (gate_poly (ZMod 101) cfg2))

/-- Its fold transform with `(num_fixed, num_instance, num_advice) =
(8, 0, 4)` as in the tests. -/
def foldedM : MPoly (ZMod 101) := fold_transform (8, 0, 4) baseM

/-- Number of backend calls one loop iteration makes: 4 advice
assignments and 5 fixed assignments, plus the equality constraint when a
previous out cell exists. -/
def stepCalls (hasOut : Bool) : Nat := cond hasOut 10 9

/-- Number of backend calls `n` loop iterations make (after the first
iteration an out cell always exists). -/
def loopCalls : Nat → Bool → Nat
  | 0, _ => 0
  | n + 1, hasOut => stepCalls hasOut + loopCalls n true

/-! ## Theorems -/

/-- C10: `random_linear_combination` called with `terms` of length 0
or 1 panics: the `for i in 1..d` loop body never runs, so the final
accumulator `Option` is still `None` when it is unwrapped; no single
term, empty sum, or `Err` value is returned. -/
theorem rlc_short_input_panics {F : Type} [Field F] (o : Oracle) (cfg : AuxConfig)
    (ctx : RegionCtx F) (terms : List F) (r : F) (h : terms.length ≤ 1) :
    random_linear_combination o cfg ctx terms r = .panic := by
  unfold random_linear_combination
  have h0 : terms.length - 1 = 0 := by omega
  rw [h0]
  rfl

theorem rlc_short_input_panics_witness :
    ([(3 : ℚ)].length ≤ 1) ∧
      random_linear_combination happy cfg2 (ctx0 ℚ) [(3 : ℚ)] 2 = .panic :=
  ⟨by decide, rlc_short_input_panics happy cfg2 (ctx0 ℚ) [(3 : ℚ)] 2 (by decide)⟩

/-- C8: `configure` hits the fatal `assert!(T>=2)` for any width `T < 2`
before allocating any column or registering any gate (its result is the
width panic irrespective of the supplied column iterators); for `T >= 2`
the width check never fires, and with enough columns configuration
succeeds, registering exactly the single gate. -/
theorem configure_width_precondition (T : Nat) (adv fix : List Nat) :
    (T < 2 → configure ℚ T adv fix = .error .widthAssert) ∧
    (2 ≤ T → configure ℚ T adv fix ≠ .error .widthAssert) ∧
    (2 ≤ T → T + 2 ≤ adv.length → 2 * T + 4 ≤ fix.length →
      ∃ cfg : AuxConfig, configure ℚ T adv fix = .ok (cfg, [[gate_poly ℚ cfg]])) := by
  refine ⟨fun h => ?_, fun h => ?_, fun h ha hf => ?_⟩
  · simp [configure, h]
  · have h1 : ¬ T < 2 := by omega
    unfold configure
    rw [if_neg h1]
    split
    · simp
    · simp
  · have h1 : ¬ T < 2 := by omega
    have h2 : ¬ (adv.length < T + 2 ∨ fix.length < 2 * T + 4) := by omega
    unfold configure
    rw [if_neg h1, if_neg h2]
    exact ⟨_, rfl⟩

theorem configure_width_precondition_witness :
    configure ℚ 1 [0, 1, 2] [0, 1, 2, 3, 4, 5] = .error .widthAssert ∧
    ∃ cfg : AuxConfig,
      configure ℚ 2 [0, 1, 2, 3] [0, 1, 2, 3, 4, 5, 6, 7] = .ok (cfg, [[gate_poly ℚ cfg]]) :=
  ⟨(configure_width_precondition 1 [0, 1, 2] [0, 1, 2, 3, 4, 5]).1 (by decide),
   (configure_width_precondition 2 [0, 1, 2, 3] [0, 1, 2, 3, 4, 5, 6, 7]).2.2
     (by decide) (by decide) (by decide)⟩

/-- C6: for `T = 2` (advice columns 0..3, fixed columns 0..7 in
declaration order), `configure` yields exactly one gate with exactly one
polynomial, and its translation to flat `Z`-indices (fixed, then
instance, then advice) renders as the documented golden string. -/
theorem gate_golden_string :
    configure ℚ 2 [0, 1, 2, 3] [0, 1, 2, 3, 4, 5, 6, 7] = .ok (cfg2, [[gate_poly ℚ cfg2]]) ∧
    render (from_halo2_expr 8 0 (gate_poly ℚ cfg2)) =
      "(((((((Z_4 * Z_8) * Z_9) + (Z_5 * Z_10)) + Z_7) + (Z_6 * Z_11)) + ((Z_0 * Z_8) + (Z_2 * (((Z_8 * Z_8) * (Z_8 * Z_8)) * Z_8)))) + ((Z_1 * Z_9) + (Z_3 * (((Z_9 * Z_9) * (Z_9 * Z_9)) * Z_9))))" := by
  exact ⟨by rfl, by rfl⟩

/-- C2 (code bug): on `terms = [3, 5, 7]`, `r = 2` the gadget's first
row assigns `s[0] = 2`, `s[1] = 7` (the accumulator), `input = 5`, new
accumulator `19`, selectors `q_1[0] = q_1[1] = q_m = q_i = 1`,
`q_o = -1`, `rc` and `q_5` left at zero; substituting these values (new
accumulator as `out`) into the registered gate polynomial yields
`9 = r + accumulator`, not `0`: the laid-out rows violate the gate the
chip itself registers. -/
theorem rlc_first_row_gate_value :
    random_linear_combination happy cfg2 (ctx0 (ZMod 101)) [3, 5, 7] 2 =
      .ok ⟨1, 1, 41⟩
        { offset := 2, calls := 19,
          advice := [(1, 1, 41), (0, 1, 2), (1, 1, 19), (2, 1, 3),
                     (1, 0, 19), (0, 0, 2), (1, 0, 7), (2, 0, 5)],
          fixedVals := [(6, 1, -1), (4, 1, 1), (5, 1, 1), (1, 1, 1), (0, 1, 1),
                        (6, 0, -1), (4, 0, 1), (5, 0, 1), (1, 0, 1), (0, 0, 1)],
          eqs := [((1, 1), (1, 0))] } ∧
    evalH
      ({ fixAt := fun c _ => if c = 0 ∨ c = 1 ∨ c = 4 ∨ c = 5 then 1 else if c = 6 then -1 else 0
         advAt := fun c _ =>
           if c = 0 then 2 else if c = 1 then 7 else if c = 2 then 5 else if c = 3 then 19 else 0
         instAt := fun _ _ => 0 } : ColAssign (ZMod 101)) (gate_poly (ZMod 101) cfg2) = 9 ∧
    (9 : ZMod 101) ≠ 0 := by
  exact ⟨by decide, by decide, by decide⟩

/-- C3 (code bug): on `terms = [3, 5, 7]`, `r = 2` each step does place
`r` in state column 0, the running accumulator in state column 1 (wired
by an equality constraint to the previous out cell), and the next term
in the input column — but the new accumulator is assigned to state
column 1 again (`self.config.state[1]`, despite the `out=...` label),
the out column (index 3) is never assigned, and the returned final
accumulator cell lies in state column 1, not in the out column. -/
theorem rlc_layout :
    ∃ c : ACell (ZMod 101), ∃ ctx' : RegionCtx (ZMod 101),
      random_linear_combination happy cfg2 (ctx0 (ZMod 101)) [3, 5, 7] 2 = .ok c ctx' ∧
      (0, 0, (2 : ZMod 101)) ∈ ctx'.advice ∧ (0, 1, (2 : ZMod 101)) ∈ ctx'.advice ∧
      (1, 0, (7 : ZMod 101)) ∈ ctx'.advice ∧ (1, 1, (19 : ZMod 101)) ∈ ctx'.advice ∧
      ctx'.eqs = [((1, 1), (1, 0))] ∧
      (2, 0, (5 : ZMod 101)) ∈ ctx'.advice ∧ (2, 1, (3 : ZMod 101)) ∈ ctx'.advice ∧
      (1, 1, (19 : ZMod 101)) ∈ ctx'.advice ∧ (1, 1, (41 : ZMod 101)) ∈ ctx'.advice ∧
      c.col = cfg2.state.getD 1 0 ∧ c.col ≠ cfg2.out ∧ c.val = 41 ∧
      ctx'.advice.all (fun x => decide (x.1 ≠ cfg2.out)) := by
  refine ⟨⟨1, 1, 41⟩,
    { offset := 2, calls := 19,
      advice := [(1, 1, 41), (0, 1, 2), (1, 1, 19), (2, 1, 3),
                 (1, 0, 19), (0, 0, 2), (1, 0, 7), (2, 0, 5)],
      fixedVals := [(6, 1, -1), (4, 1, 1), (5, 1, 1), (1, 1, 1), (0, 1, 1),
                    (6, 0, -1), (4, 0, 1), (5, 0, 1), (1, 0, 1), (0, 0, 1)],
      eqs := [((1, 1), (1, 0))] }, ?_⟩
  refine ⟨by decide, by decide, by decide, by decide, by decide, by decide, by decide,
    by decide, by decide, by decide, by decide, by decide, by decide, by decide⟩

/-- Splitting one element off the Horner evaluation of a list suffix. -/
theorem hornerEval_drop {F : Type} [Field F] (r : F) (terms : List F) (k : Nat)
    (h : k < terms.length) :
    hornerEval r (terms.drop k) = terms.getD k 0 + r * hornerEval r (terms.drop (k + 1)) := by
  rw [List.drop_eq_getElem_cons h, hornerEval, List.getD_eq_getElem _ _ h]

/-- Horner evaluation computes the power sum `Σ_i r^i * terms[i]`. -/
theorem hornerEval_eq_sum {F : Type} [Field F] (r : F) (terms : List F) :
    hornerEval r terms = ∑ i in Finset.range terms.length, r ^ i * terms.getD i 0 := by
  induction terms with
  | nil => simp [hornerEval]
  | cons t ts ih =>
      rw [hornerEval, ih, List.length_cons, Finset.sum_range_succ']
      simp only [List.getD_cons_succ, List.getD_cons_zero, pow_zero, one_mul]
      rw [Finset.mul_sum, add_comm]
      congr 1
      refine Finset.sum_congr rfl fun i _ => ?_
      ring

/-- Under the all-success oracle one loop step returns the new out cell
holding `lhs + r * rhsVal` in state column 1 at the current row, and
advances the cursor exactly once. -/
theorem rlcStep_happy {F : Type} [Field F] (cfg : AuxConfig) (r lhs rhsVal : F)
    (out : Option (ACell F)) (ctx : RegionCtx F) :
    ∃ ctx', rlcStep happy cfg r lhs rhsVal out ctx =
        .ok (⟨cfg.state.getD 1 0, ctx.offset, lhs + r * rhsVal⟩, ctx') ∧
      ctx'.offset = ctx.offset + 1 ∧ ctx'.calls = ctx.calls + stepCalls out.isSome := by
  cases out
  · exact ⟨_, rfl, rfl, rfl⟩
  · exact ⟨_, rfl, rfl, rfl⟩

/-- Loop invariant under the all-success oracle: once an accumulator
cell holding the Horner value of the running suffix exists, the
remaining iterations complete with the full Horner value and advance
the cursor once per iteration. -/
theorem rlcLoop_happy {F : Type} [Field F] (cfg : AuxConfig) (terms : List F) (r : F) :
    ∀ n i (cell : ACell F) (ctx : RegionCtx F), 2 ≤ i → i + n = terms.length →
      cell.val = hornerEval r (terms.drop (terms.length - i)) →
      ∃ c' ctx', rlcLoop happy cfg terms r n i (some cell) ctx = .done (some c') ctx' ∧
        c'.val = hornerEval r terms ∧ ctx'.offset = ctx.offset + n := by
  intro n
  induction n with
  | zero =>
      intro i cell ctx hi hin hval
      refine ⟨cell, ctx, rfl, ?_, rfl⟩
      have h0 : terms.length - i = 0 := by omega
      rw [h0, List.drop_zero] at hval
      exact hval
  | succ n ih =>
      intro i cell ctx hi hin hval
      have hne : ¬ i = 1 := by omega
      obtain ⟨ctx1, hstep, hoff, -⟩ := rlcStep_happy cfg r
        (terms.getD (terms.length - 1 - i) 0) cell.val (some cell) ctx
      have hval' : (terms.getD (terms.length - 1 - i) 0 + r * cell.val) =
          hornerEval r (terms.drop (terms.length - (i + 1))) := by
        have hk : terms.length - (i + 1) < terms.length := by omega
        rw [hornerEval_drop r terms _ hk]
        have h1 : terms.length - (i + 1) = terms.length - 1 - i := by omega
        have h2 : terms.length - (i + 1) + 1 = terms.length - i := by omega
        rw [h1] at hk ⊢
        rw [show terms.length - 1 - i + 1 = terms.length - i by omega, hval]
      obtain ⟨c', ctx', hrun, hv, ho⟩ :=
        ih (i + 1) ⟨cfg.state.getD 1 0, ctx.offset,
          terms.getD (terms.length - 1 - i) 0 + r * cell.val⟩ ctx1
          (by omega) (by omega) hval'
      refine ⟨c', ctx', ?_, hv, by omega⟩
      rw [rlcLoop]
      simp only [hne, if_false, Option.map_some']
      rw [hstep]
      exact hrun

/-- Under the all-success oracle the gadget returns the Horner value;
shared between several claim theorems. -/
theorem rlc_happy_spec {F : Type} [Field F] (cfg : AuxConfig) (ctx : RegionCtx F)
    (terms : List F) (r : F) (h : 2 ≤ terms.length) :
    ∃ c ctx', random_linear_combination happy cfg ctx terms r = .ok c ctx' ∧
      c.val = ∑ i in Finset.range terms.length, r ^ i * terms.getD i 0 := by
  obtain ⟨n, hn⟩ : ∃ n, terms.length = n + 2 := ⟨terms.length - 2, by omega⟩
  obtain ⟨ctx1, hstep, hoff, -⟩ := rlcStep_happy cfg r
    (terms.getD (terms.length - 1 - 1) 0) (terms.getD (terms.length - 1) 0)
    (none : Option (ACell F)) ctx
  have hval1 : (terms.getD (terms.length - 1 - 1) 0 +
      r * terms.getD (terms.length - 1) 0) =
      hornerEval r (terms.drop (terms.length - 2)) := by
    have hk : terms.length - 2 < terms.length := by omega
    have hk' : terms.length - 1 < terms.length := by omega
    rw [hornerEval_drop r terms _ hk,
      show terms.length - 2 + 1 = terms.length - 1 by omega,
      hornerEval_drop r terms _ hk',
      show terms.length - 1 + 1 = terms.length by omega,
      List.drop_length]
    rw [show terms.length - 1 - 1 = terms.length - 2 by omega]
    simp [hornerEval]
  obtain ⟨c', ctx', hrun, hv, -⟩ := rlcLoop_happy cfg terms r n (1 + 1)
    ⟨cfg.state.getD 1 0, ctx.offset,
      terms.getD (terms.length - 1 - 1) 0 + r * terms.getD (terms.length - 1) 0⟩
    ctx1 (by omega) (by omega) hval1
  refine ⟨c', ctx', ?_, by rw [hv, hornerEval_eq_sum]⟩
  unfold random_linear_combination
  rw [show terms.length - 1 = n + 1 by omega, rlcLoop]
  simp only [if_true]
  rw [hstep]
  simp only [hrun]

/-- Looking up a mapped advice query in the state-query list. -/
theorem getD_map_advice {F : Type} [Field F] (l : List Nat) (k : Nat) (hk : k < l.length) :
    (l.map (fun c => HExpr.adviceQ (F := F) c 0)).getD k (HExpr.const 0) =
      HExpr.adviceQ (l.getD k 0) 0 := by
  rw [List.getD_eq_getElem _ _ (by simpa using hk), List.getElem_map,
    List.getD_eq_getElem _ _ hk]

/-- Evaluation of the selector-fold of `configure`'s gate: it adds
`Σ_k q_1[k]*s[k] + Σ_k q_5[k]*s[k]^5` to the initial term. -/
theorem gate_fold_eval {F : Type} [Field F] (σ : ColAssign F) :
    ∀ (s q1 q5 : List Nat) (init : HExpr F), q1.length = s.length → q5.length = s.length →
      evalH σ ((((s.map (fun c => HExpr.adviceQ c 0)).zip
          (q1.map (fun c => HExpr.fixedQ c 0))).zip
          (q5.map (fun c => HExpr.fixedQ c 0))).foldl
        (fun acc x => .add acc (.add (.mul x.1.2 x.1.1) (.mul x.2 (pow_5 x.1.1)))) init) =
      evalH σ init + ((List.zipWith (fun qc sc => σ.fixAt qc 0 * σ.advAt sc 0) q1 s).sum +
        (List.zipWith (fun qc sc => σ.fixAt qc 0 * σ.advAt sc 0 ^ 5) q5 s).sum) := by
  intro s
  induction s with
  | nil =>
      intro q1 q5 init h1 h5
      simp
  | cons a s ih =>
      intro q1 q5 init h1 h5
      cases q1 with
      | nil => simp at h1
      | cons b q1 =>
          cases q5 with
          | nil => simp at h5
          | cons c q5 =>
              simp only [List.map_cons, List.zip_cons_cons, List.foldl_cons,
                List.zipWith_cons_cons, List.sum_cons, List.length_cons] at h1 h5 ⊢
              rw [ih q1 q5 _ (by omega) (by omega)]
              simp only [evalH, pow_5]
              ring

/-- The witness degree of the selector-fold of `configure`'s gate: with
at least one state column it is `max (advDeg init) 5`, the quintic
terms dominating. -/
theorem gate_fold_deg {F : Type} :
    ∀ (s q1 q5 : List Nat) (init : HExpr F), s ≠ [] →
      q1.length = s.length → q5.length = s.length →
      advDeg ((((s.map (fun c => HExpr.adviceQ c 0)).zip
          (q1.map (fun c => HExpr.fixedQ c 0))).zip
          (q5.map (fun c => HExpr.fixedQ c 0))).foldl
        (fun acc x => .add acc (.add (.mul x.1.2 x.1.1) (.mul x.2 (pow_5 x.1.1)))) init) =
      max (advDeg init) 5 := by
  intro s
  induction s with
  | nil => intro q1 q5 init hne h1 h5; exact absurd rfl hne
  | cons a s ih =>
      intro q1 q5 init hne h1 h5
      cases q1 with
      | nil => simp at h1
      | cons b q1 =>
          cases q5 with
          | nil => simp at h5
          | cons c q5 =>
              simp only [List.map_cons, List.zip_cons_cons, List.foldl_cons,
                List.length_cons] at h1 h5 ⊢
              by_cases hs : s = []
              · subst hs
                have hq1 : q1 = [] := by simpa using h1
                have hq5 : q5 = [] := by simpa using h5
                subst hq1
                subst hq5
                simp only [List.map_nil, List.zip_nil_left, List.foldl_nil, advDeg, pow_5]
                omega
              · rw [ih q1 q5 _ hs (by omega) (by omega)]
                simp only [advDeg, pow_5]
                omega

/-- Every query of the selector-fold of `configure`'s gate uses the
current-row rotation. -/
theorem gate_fold_rot {F : Type} :
    ∀ (s q1 q5 : List Nat) (init : HExpr F),
      q1.length = s.length → q5.length = s.length →
      rotCur ((((s.map (fun c => HExpr.adviceQ c 0)).zip
          (q1.map (fun c => HExpr.fixedQ c 0))).zip
          (q5.map (fun c => HExpr.fixedQ (F := F) c 0))).foldl
        (fun acc x => .add acc (.add (.mul x.1.2 x.1.1) (.mul x.2 (pow_5 x.1.1)))) init) =
      rotCur init := by
  intro s
  induction s with
  | nil =>
      intro q1 q5 init h1 h5
      rfl
  | cons a s ih =>
      intro q1 q5 init h1 h5
      cases q1 with
      | nil => simp at h1
      | cons b q1 =>
          cases q5 with
          | nil => simp at h5
          | cons c q5 =>
              simp only [List.map_cons, List.zip_cons_cons, List.foldl_cons,
                List.length_cons] at h1 h5 ⊢
              rw [ih q1 q5 _ (by omega) (by omega)]
              simp [rotCur, pow_5]

/-- C5 (counterexample): the coefficient of the fold transform at
challenge-power 0 is NOT the base gate polynomial evaluated purely on
copy-1 variables: at the assignment sending the `rc` variable (index 7)
to 1 and everything else — in particular copy-1's homogenization
variable `Z_12` — to 0, the extracted coefficient evaluates to 0 while
the base polynomial evaluates to 1 (the coefficient's monomials carry
homogenization factors `Z_12^(5-d)`, pinned by the repository's golden
test strings). -/
theorem fold_coeff0_counterexample :
    evalPoly (fun v => if v = 7 then 1 else 0)
        (coeff_of (8 + 2 * (0 + 4 + 1)) 0 foldedM) = 0 ∧
    evalPoly (fun v => if v = 7 then 1 else 0) baseM = 1 ∧
    (0 : ZMod 101) ≠ 1 :=
  ⟨by decide, by decide, by decide⟩

/-- C5 (amended): for the fold transform with `(num_fixed,
num_instance, num_advice) = (8, 0, 4)` the challenge variable has index
`num_fixed + 2*(num_instance + num_advice + 1) = 18`; the coefficient
extracted at challenge-power 0 equals the base gate polynomial
evaluated on copy-1 variables whenever copy-1's reserved homogenization
variable (index 12) is 1, and the coefficient at the maximal power 5
equals the base gate polynomial evaluated on copy-2 variables (witness
variable `v` read at `v + 5`) whenever copy-2's homogenization variable
(index 17) is 1. -/
theorem fold_coeff_amended :
    (∀ σ : Nat → ZMod 101, σ 12 = 1 →
      evalPoly σ (coeff_of (8 + 2 * (0 + 4 + 1)) 0 foldedM) = evalPoly σ baseM) ∧
    (∀ σ : Nat → ZMod 101, σ 17 = 1 →
      evalPoly σ (coeff_of (8 + 2 * (0 + 4 + 1)) 5 foldedM) =
        evalPoly (fun v => σ (if v < 8 then v else v + 5)) baseM) := by
  have hB : baseM =
      [⟨1, [(4, 1), (8, 1), (9, 1)]⟩, ⟨1, [(5, 1), (10, 1)]⟩, ⟨1, [(7, 1)]⟩,
       ⟨1, [(6, 1), (11, 1)]⟩, ⟨1, [(0, 1), (8, 1)]⟩,
       ⟨1, [(2, 1), (8, 1), (8, 1), (8, 1), (8, 1), (8, 1)]⟩, ⟨1, [(1, 1), (9, 1)]⟩,
       ⟨1, [(3, 1), (9, 1), (9, 1), (9, 1), (9, 1), (9, 1)]⟩] := by decide
  constructor
  · intro σ h12
    have hL0 : coeff_of (8 + 2 * (0 + 4 + 1)) 0 foldedM =
        [⟨1, [(8, 1), (9, 1), (4, 1), (12, 1), (12, 1), (12, 1)]⟩,
         ⟨1, [(10, 1), (5, 1), (12, 1), (12, 1), (12, 1), (12, 1)]⟩,
         ⟨1, [(7, 1), (12, 1), (12, 1), (12, 1), (12, 1), (12, 1)]⟩,
         ⟨1, [(11, 1), (6, 1), (12, 1), (12, 1), (12, 1), (12, 1)]⟩,
         ⟨1, [(8, 1), (0, 1), (12, 1), (12, 1), (12, 1), (12, 1)]⟩,
         ⟨1, [(8, 1), (8, 1), (8, 1), (8, 1), (8, 1), (2, 1)]⟩,
         ⟨1, [(9, 1), (1, 1), (12, 1), (12, 1), (12, 1), (12, 1)]⟩,
         ⟨1, [(9, 1), (9, 1), (9, 1), (9, 1), (9, 1), (3, 1)]⟩] := by decide
    rw [hL0, hB]
    simp only [evalPoly, evalMono, List.foldr]
    rw [h12]
    ring
  · intro σ h17
    have hL5 : coeff_of (8 + 2 * (0 + 4 + 1)) 5 foldedM =
        [⟨1, [(13, 1), (14, 1), (4, 1), (17, 1), (17, 1), (17, 1)]⟩,
         ⟨1, [(15, 1), (5, 1), (17, 1), (17, 1), (17, 1), (17, 1)]⟩,
         ⟨1, [(7, 1), (17, 1), (17, 1), (17, 1), (17, 1), (17, 1)]⟩,
         ⟨1, [(16, 1), (6, 1), (17, 1), (17, 1), (17, 1), (17, 1)]⟩,
         ⟨1, [(13, 1), (0, 1), (17, 1), (17, 1), (17, 1), (17, 1)]⟩,
         ⟨1, [(13, 1), (13, 1), (13, 1), (13, 1), (13, 1), (2, 1)]⟩,
         ⟨1, [(14, 1), (1, 1), (17, 1), (17, 1), (17, 1), (17, 1)]⟩,
         ⟨1, [(14, 1), (14, 1), (14, 1), (14, 1), (14, 1), (3, 1)]⟩] := by decide
    rw [hL5, hB]
    simp only [evalPoly, evalMono, List.foldr]
    norm_num
    rw [h17]
    ring

theorem fold_coeff_amended_witness :
    ((fun v => if v = 12 ∨ v = 17 then (1 : ZMod 101) else (v : ZMod 101) + 2) 12 = 1) ∧
    ((fun v => if v = 12 ∨ v = 17 then (1 : ZMod 101) else (v : ZMod 101) + 2) 17 = 1) ∧
    evalPoly (fun v => if v = 12 ∨ v = 17 then (1 : ZMod 101) else (v : ZMod 101) + 2)
        (coeff_of (8 + 2 * (0 + 4 + 1)) 0 foldedM) =
      evalPoly (fun v => if v = 12 ∨ v = 17 then (1 : ZMod 101) else (v : ZMod 101) + 2)
        baseM ∧
    evalPoly (fun v => if v = 12 ∨ v = 17 then (1 : ZMod 101) else (v : ZMod 101) + 2)
        (coeff_of (8 + 2 * (0 + 4 + 1)) 5 foldedM) =
      evalPoly (fun v => (fun w => if w = 12 ∨ w = 17 then (1 : ZMod 101)
        else (w : ZMod 101) + 2) (if v < 8 then v else v + 5)) baseM :=
  ⟨by decide, by decide,
   fold_coeff_amended.1
     (fun v => if v = 12 ∨ v = 17 then (1 : ZMod 101) else (v : ZMod 101) + 2) (by decide),
   fold_coeff_amended.2
     (fun v => if v = 12 ∨ v = 17 then (1 : ZMod 101) else (v : ZMod 101) + 2) (by decide)⟩

/-- C4: a successful `configure` registers exactly one gate containing
exactly one polynomial; under every cell assignment that polynomial
evaluates to `q_m*s[0]*s[1] + Σ_k q_1[k]*s[k] + Σ_k q_5[k]*s[k]^5 + rc
+ q_i*input + q_o*out`; every cell query uses the current-row rotation
only; and its total degree (in the witness queries, the fixed selectors
being circuit constants) is 5. -/
theorem configure_gate {F : Type} [Field F] (T : Nat) (adv fix : List Nat)
    (cfg : AuxConfig) (gates : List (List (HExpr F))) (h2 : 2 ≤ T)
    (hcfg : configure F T adv fix = .ok (cfg, gates)) :
    gates = [[gate_poly F cfg]] ∧
    (∀ σ : ColAssign F,
      evalH σ (gate_poly F cfg) =
        σ.fixAt cfg.q_m 0 * σ.advAt (cfg.state.getD 0 0) 0 *
            σ.advAt (cfg.state.getD 1 0) 0 +
          (List.zipWith (fun qc sc => σ.fixAt qc 0 * σ.advAt sc 0) cfg.q_1 cfg.state).sum +
          (List.zipWith (fun qc sc => σ.fixAt qc 0 * σ.advAt sc 0 ^ 5) cfg.q_5 cfg.state).sum +
          σ.fixAt cfg.rc 0 + σ.fixAt cfg.q_i 0 * σ.advAt cfg.input 0 +
          σ.fixAt cfg.q_o 0 * σ.advAt cfg.out 0) ∧
    rotCur (gate_poly F cfg) = true ∧ advDeg (gate_poly F cfg) = 5 := by
  unfold configure at hcfg
  rw [if_neg (by omega : ¬ T < 2)] at hcfg
  split at hcfg
  · exact absurd hcfg (by simp)
  · rename_i hlen
    push_neg at hlen
    obtain ⟨ha, hf⟩ := hlen
    simp only [Except.ok.injEq, Prod.mk.injEq] at hcfg
    obtain ⟨rfl, rfl⟩ := hcfg
    have hsl : (adv.take T).length = T := by rw [List.length_take]; omega
    have hq1l : (fix.take T).length = T := by rw [List.length_take]; omega
    have hq5l : ((fix.drop T).take T).length = T := by
      rw [List.length_take, List.length_drop]; omega
    have hsne : adv.take T ≠ [] := by
      intro hx
      rw [hx] at hsl
      simp at hsl
      omega
    have h0 : 0 < (adv.take T).length := by omega
    have h1 : 1 < (adv.take T).length := by omega
    refine ⟨rfl, fun σ => ?_, ?_, ?_⟩
    · unfold gate_poly
      dsimp only
      rw [getD_map_advice _ 0 h0, getD_map_advice _ 1 h1,
        gate_fold_eval σ (adv.take T) (fix.take T) ((fix.drop T).take T) _
          (by rw [hq1l, hsl]) (by rw [hq5l, hsl])]
      simp only [evalH]
      ring
    · unfold gate_poly
      dsimp only
      rw [getD_map_advice _ 0 h0, getD_map_advice _ 1 h1,
        gate_fold_rot (adv.take T) (fix.take T) ((fix.drop T).take T) _
          (by rw [hq1l, hsl]) (by rw [hq5l, hsl])]
      simp [rotCur]
    · unfold gate_poly
      dsimp only
      rw [getD_map_advice _ 0 h0, getD_map_advice _ 1 h1,
        gate_fold_deg (adv.take T) (fix.take T) ((fix.drop T).take T) _ hsne
          (by rw [hq1l, hsl]) (by rw [hq5l, hsl])]
      simp only [advDeg]
      omega

theorem configure_gate_witness :
    (2 ≤ 2) ∧
    configure (ZMod 101) 2 [0, 1, 2, 3] [0, 1, 2, 3, 4, 5, 6, 7] =
      .ok (cfg2, [[gate_poly (ZMod 101) cfg2]]) ∧
    ([[gate_poly (ZMod 101) cfg2]] = [[gate_poly (ZMod 101) cfg2]] ∧
    (∀ σ : ColAssign (ZMod 101),
      evalH σ (gate_poly (ZMod 101) cfg2) =
        σ.fixAt cfg2.q_m 0 * σ.advAt (cfg2.state.getD 0 0) 0 *
            σ.advAt (cfg2.state.getD 1 0) 0 +
          (List.zipWith (fun qc sc => σ.fixAt qc 0 * σ.advAt sc 0) cfg2.q_1 cfg2.state).sum +
          (List.zipWith (fun qc sc => σ.fixAt qc 0 * σ.advAt sc 0 ^ 5) cfg2.q_5 cfg2.state).sum +
          σ.fixAt cfg2.rc 0 + σ.fixAt cfg2.q_i 0 * σ.advAt cfg2.input 0 +
          σ.fixAt cfg2.q_o 0 * σ.advAt cfg2.out 0) ∧
    rotCur (gate_poly (ZMod 101) cfg2) = true ∧
    advDeg (gate_poly (ZMod 101) cfg2) = 5) :=
  ⟨by decide, by rfl,
   configure_gate 2 [0, 1, 2, 3] [0, 1, 2, 3, 4, 5, 6, 7] cfg2
     [[gate_poly (ZMod 101) cfg2]] (by decide) (by rfl)⟩

/-- Inverting a successful `Except.bind`. -/
theorem except_bind_ok {α β : Type} {e : Except Err α} {f : α → Except Err β} {b : β} :
    e.bind f = .ok b ↔ ∃ a, e = .ok a ∧ f a = .ok b := by
  cases e with
  | error er => simp [Except.bind]
  | ok a => simp [Except.bind]

/-- Inversion of a successful advice assignment: the returned cell and
region state are fully determined. -/
theorem assign_advice_inv {F : Type} {o : Oracle} {ctx : RegionCtx F} {col : Nat} {v : F}
    {x : ACell F × RegionCtx F} (h : assign_advice o ctx col v = .ok x) :
    x = (⟨col, ctx.offset, v⟩,
      { ctx with calls := ctx.calls + 1, advice := (col, ctx.offset, v) :: ctx.advice }) := by
  unfold assign_advice at h
  split at h
  · exact absurd h (by simp)
  · simp only [Except.ok.injEq] at h
    exact h.symm

/-- Inversion of a successful fixed assignment. -/
theorem assign_fixed_inv {F : Type} {o : Oracle} {ctx : RegionCtx F} {col : Nat} {v : F}
    {x : ACell F × RegionCtx F} (h : assign_fixed o ctx col v = .ok x) :
    x = (⟨col, ctx.offset, v⟩,
      { ctx with calls := ctx.calls + 1, fixedVals := (col, ctx.offset, v) :: ctx.fixedVals }) := by
  unfold assign_fixed at h
  split at h
  · exact absurd h (by simp)
  · simp only [Except.ok.injEq] at h
    exact h.symm

/-- Inversion of a successful equality constraint. -/
theorem constrain_equal_inv {F : Type} {o : Oracle} {ctx : RegionCtx F} {c0 c1 : Nat × Nat}
    {ctx2 : RegionCtx F} (h : constrain_equal o ctx c0 c1 = .ok ctx2) :
    ctx2 = { ctx with calls := ctx.calls + 1, eqs := (c0, c1) :: ctx.eqs } := by
  unfold constrain_equal at h
  split at h
  · exact absurd h (by simp)
  · simp only [Except.ok.injEq] at h
    exact h.symm

/-- A successful equality guard leaves the cursor unchanged and makes
one backend call exactly when a previous out cell exists. -/
theorem eqGuard_inv {F : Type} {o : Oracle} {ctx : RegionCtx F} {rhs : ACell F}
    {out : Option (ACell F)} {ctx3 : RegionCtx F} (h : eqGuard o ctx rhs out = .ok ctx3) :
    ctx3.offset = ctx.offset ∧ ctx3.calls = ctx.calls + cond out.isSome 1 0 := by
  cases out with
  | none =>
      unfold eqGuard at h
      simp only [Except.ok.injEq] at h
      rw [← h]
      simp
  | some cc =>
      rw [constrain_equal_inv h]
      exact ⟨rfl, rfl⟩

/-- Any successful step, under any oracle, advances the cursor by
exactly one row. -/
theorem rlcStep_ok_offset {F : Type} [Field F] {o : Oracle} {cfg : AuxConfig}
    {r lhs rhsVal : F} {out : Option (ACell F)} {ctx : RegionCtx F}
    {c : ACell F} {ctx' : RegionCtx F}
    (h : rlcStep o cfg r lhs rhsVal out ctx = .ok (c, ctx')) :
    ctx'.offset = ctx.offset + 1 := by
  unfold rlcStep at h
  simp only [except_bind_ok] at h
  obtain ⟨x1, h1, x2, h2, ctx3, h3, x4, h4, x5, h5, x6, h6, x7, h7, x8, h8, x9, h9,
    x10, h10, hfin⟩ := h
  simp only [Except.ok.injEq, Prod.mk.injEq] at hfin
  obtain ⟨-, h'⟩ := hfin
  rw [← h']
  simp [RegionCtx.next, assign_fixed_inv h10, assign_fixed_inv h9, assign_fixed_inv h8,
    assign_fixed_inv h7, assign_fixed_inv h6, assign_advice_inv h5, assign_advice_inv h4,
    (eqGuard_inv h3).1, assign_advice_inv h2, assign_advice_inv h1]

/-- A loop run that completes advances the cursor by exactly its number
of iterations. -/
theorem rlcLoop_done_offset {F : Type} [Field F] {o : Oracle} {cfg : AuxConfig}
    {terms : List F} {r : F} :
    ∀ {n i : Nat} {out : Option (ACell F)} {ctx : RegionCtx F}
      {out' : Option (ACell F)} {ctx' : RegionCtx F},
      rlcLoop o cfg terms r n i out ctx = .done out' ctx' →
        ctx'.offset = ctx.offset + n := by
  intro n
  induction n with
  | zero =>
      intro i out ctx out' ctx' h
      rw [rlcLoop] at h
      simp only [LoopRes.done.injEq] at h
      rw [← h.2]
      omega
  | succ n ih =>
      intro i out ctx out' ctx' h
      rw [rlcLoop] at h
      split at h
      · exact absurd h (by simp)
      · split at h
        · exact absurd h (by simp)
        · rename_i newOut ctxx heq
          have := ih h
          have hoff := rlcStep_ok_offset heq
          omega

/-- C7: during a successful `random_linear_combination` call on `d ≥ 2`
terms starting at offset `o`, the cursor is advanced exactly once per
completed Horner step (so it never decreases), and on return it equals
`o + (d - 1)`: the first unused row after the `d - 1` laid-out rows. -/
theorem rlc_cursor {F : Type} [Field F] (cfg : AuxConfig) (ctx : RegionCtx F)
    (terms : List F) (r : F) (o : Oracle) (_h2 : 2 ≤ terms.length) :
    (∀ (o' : Oracle) (r' lhs rhsVal : F) (out : Option (ACell F)) (ctxA : RegionCtx F)
      (c : ACell F) (ctxB : RegionCtx F),
        rlcStep o' cfg r' lhs rhsVal out ctxA = .ok (c, ctxB) →
          ctxB.offset = ctxA.offset + 1) ∧
    (∀ (c : ACell F) (ctx' : RegionCtx F),
      random_linear_combination o cfg ctx terms r = .ok c ctx' →
        ctx'.offset = ctx.offset + (terms.length - 1)) := by
  refine ⟨fun o' r' lhs rhsVal out ctxA c ctxB h => rlcStep_ok_offset h,
    fun c ctx' h => ?_⟩
  unfold random_linear_combination at h
  split at h
  · exact absurd h (by simp)
  · exact absurd h (by simp)
  · exact absurd h (by simp)
  · rename_i cc ctxx heq
    simp only [RlcRes.ok.injEq] at h
    rw [← h.2]
    exact rlcLoop_done_offset heq

theorem rlc_cursor_witness :
    (2 ≤ ([3, 5, 7] : List (ZMod 101)).length) ∧
    (∀ (c : ACell (ZMod 101)) (ctx' : RegionCtx (ZMod 101)),
      random_linear_combination happy cfg2 (ctx0 (ZMod 101)) [3, 5, 7] 2 = .ok c ctx' →
        ctx'.offset = (ctx0 (ZMod 101)).offset + (([3, 5, 7] : List (ZMod 101)).length - 1)) :=
  ⟨by decide,
   (rlc_cursor cfg2 (ctx0 (ZMod 101)) [3, 5, 7] 2 happy (by decide)).2⟩

/-- No backend failure among the next `m` calls starting at call index
`start`. -/
def OracleFree (o : Oracle) (start m : Nat) : Prop :=
  ∀ k < m, o (start + k) = none

theorem oracleFree_succ {o : Oracle} {s m : Nat} (h : OracleFree o s (m + 1)) :
    o s = none ∧ OracleFree o (s + 1) m := by
  constructor
  · simpa using h 0 (by omega)
  · intro k hk
    have hx := h (k + 1) (by omega)
    rwa [show s + (k + 1) = s + 1 + k by omega] at hx

theorem oracleFree_split {o : Oracle} {s : Nat} (a b : Nat) (h : OracleFree o s (a + b)) :
    OracleFree o s a ∧ OracleFree o (s + a) b := by
  constructor
  · intro k hk
    exact h k (by omega)
  · intro k hk
    have hx := h (a + k) (by omega)
    rwa [show s + (a + k) = s + a + k by omega] at hx

/-- When every backend call of one step succeeds, the step behaves
exactly as under the all-success oracle. -/
theorem rlcStep_free_eq_happy {F : Type} [Field F] (o : Oracle) (cfg : AuxConfig)
    (r lhs rhsVal : F) (out : Option (ACell F)) (ctx : RegionCtx F)
    (h : OracleFree o ctx.calls (stepCalls out.isSome)) :
    rlcStep o cfg r lhs rhsVal out ctx = rlcStep happy cfg r lhs rhsVal out ctx := by
  cases out with
  | none =>
      obtain ⟨e0, h⟩ := oracleFree_succ h
      obtain ⟨e1, h⟩ := oracleFree_succ h
      obtain ⟨e2, h⟩ := oracleFree_succ h
      obtain ⟨e3, h⟩ := oracleFree_succ h
      obtain ⟨e4, h⟩ := oracleFree_succ h
      obtain ⟨e5, h⟩ := oracleFree_succ h
      obtain ⟨e6, h⟩ := oracleFree_succ h
      obtain ⟨e7, h⟩ := oracleFree_succ h
      obtain ⟨e8, h⟩ := oracleFree_succ h
      simp only [rlcStep, assign_advice, assign_fixed, eqGuard, Except.bind, happy,
        e0, e1, e2, e3, e4, e5, e6, e7, e8]
  | some prev =>
      obtain ⟨e0, h⟩ := oracleFree_succ h
      obtain ⟨e1, h⟩ := oracleFree_succ h
      obtain ⟨e2, h⟩ := oracleFree_succ h
      obtain ⟨e3, h⟩ := oracleFree_succ h
      obtain ⟨e4, h⟩ := oracleFree_succ h
      obtain ⟨e5, h⟩ := oracleFree_succ h
      obtain ⟨e6, h⟩ := oracleFree_succ h
      obtain ⟨e7, h⟩ := oracleFree_succ h
      obtain ⟨e8, h⟩ := oracleFree_succ h
      obtain ⟨e9, h⟩ := oracleFree_succ h
      simp only [rlcStep, assign_advice, assign_fixed, eqGuard, constrain_equal,
        Except.bind, happy, e0, e1, e2, e3, e4, e5, e6, e7, e8, e9]

/-- If the first failing backend call of a step is call `j` with error
`e`, the step propagates exactly that error. -/
theorem rlcStep_win_err {F : Type} [Field F] (o : Oracle) (cfg : AuxConfig)
    (r lhs rhsVal : F) (out : Option (ACell F)) (ctx : RegionCtx F) (j : Nat) (e : Err)
    (hj : j < stepCalls out.isSome) (hpre : OracleFree o ctx.calls j)
    (hfail : o (ctx.calls + j) = some e) :
    rlcStep o cfg r lhs rhsVal out ctx = .error e := by
  cases out with
  | none =>
      have hj' : j < 9 := hj
      interval_cases j
      · simp only [rlcStep, assign_advice, Except.bind, show o ctx.calls = some e by
          simpa using hfail]
      · obtain ⟨e0, hpre⟩ := oracleFree_succ hpre
        simp only [rlcStep, assign_advice, eqGuard, Except.bind, e0, hfail]
      · obtain ⟨e0, hpre⟩ := oracleFree_succ hpre
        obtain ⟨e1, hpre⟩ := oracleFree_succ hpre
        have f2 : o (ctx.calls + 1 + 1) = some e := by
          rw [show ctx.calls + 1 + 1 = ctx.calls + 2 by omega]; exact hfail
        simp only [rlcStep, assign_advice, eqGuard, Except.bind, e0, e1, f2]
      · obtain ⟨e0, hpre⟩ := oracleFree_succ hpre
        obtain ⟨e1, hpre⟩ := oracleFree_succ hpre
        obtain ⟨e2, hpre⟩ := oracleFree_succ hpre
        have f3 : o (ctx.calls + 1 + 1 + 1) = some e := by
          rw [show ctx.calls + 1 + 1 + 1 = ctx.calls + 3 by omega]; exact hfail
        simp only [rlcStep, assign_advice, eqGuard, Except.bind, e0, e1, e2, f3]
      · obtain ⟨e0, hpre⟩ := oracleFree_succ hpre
        obtain ⟨e1, hpre⟩ := oracleFree_succ hpre
        obtain ⟨e2, hpre⟩ := oracleFree_succ hpre
        obtain ⟨e3, hpre⟩ := oracleFree_succ hpre
        have f4 : o (ctx.calls + 1 + 1 + 1 + 1) = some e := by
          rw [show ctx.calls + 1 + 1 + 1 + 1 = ctx.calls + 4 by omega]; exact hfail
        simp only [rlcStep, assign_advice, assign_fixed, eqGuard, Except.bind,
          e0, e1, e2, e3, f4]
      · obtain ⟨e0, hpre⟩ := oracleFree_succ hpre
        obtain ⟨e1, hpre⟩ := oracleFree_succ hpre
        obtain ⟨e2, hpre⟩ := oracleFree_succ hpre
        obtain ⟨e3, hpre⟩ := oracleFree_succ hpre
        obtain ⟨e4, hpre⟩ := oracleFree_succ hpre
        have f5 : o (ctx.calls + 1 + 1 + 1 + 1 + 1) = some e := by
          rw [show ctx.calls + 1 + 1 + 1 + 1 + 1 = ctx.calls + 5 by omega]; exact hfail
        simp only [rlcStep, assign_advice, assign_fixed, eqGuard, Except.bind,
          e0, e1, e2, e3, e4, f5]
      · obtain ⟨e0, hpre⟩ := oracleFree_succ hpre
        obtain ⟨e1, hpre⟩ := oracleFree_succ hpre
        obtain ⟨e2, hpre⟩ := oracleFree_succ hpre
        obtain ⟨e3, hpre⟩ := oracleFree_succ hpre
        obtain ⟨e4, hpre⟩ := oracleFree_succ hpre
        obtain ⟨e5, hpre⟩ := oracleFree_succ hpre
        have f6 : o (ctx.calls + 1 + 1 + 1 + 1 + 1 + 1) = some e := by
          rw [show ctx.calls + 1 + 1 + 1 + 1 + 1 + 1 = ctx.calls + 6 by omega]; exact hfail
        simp only [rlcStep, assign_advice, assign_fixed, eqGuard, Except.bind,
          e0, e1, e2, e3, e4, e5, f6]
      · obtain ⟨e0, hpre⟩ := oracleFree_succ hpre
        obtain ⟨e1, hpre⟩ := oracleFree_succ hpre
        obtain ⟨e2, hpre⟩ := oracleFree_succ hpre
        obtain ⟨e3, hpre⟩ := oracleFree_succ hpre
        obtain ⟨e4, hpre⟩ := oracleFree_succ hpre
        obtain ⟨e5, hpre⟩ := oracleFree_succ hpre
        obtain ⟨e6, hpre⟩ := oracleFree_succ hpre
        have f7 : o (ctx.calls + 1 + 1 + 1 + 1 + 1 + 1 + 1) = some e := by
          rw [show ctx.calls + 1 + 1 + 1 + 1 + 1 + 1 + 1 = ctx.calls + 7 by omega]
          exact hfail
        simp only [rlcStep, assign_advice, assign_fixed, eqGuard, Except.bind,
          e0, e1, e2, e3, e4, e5, e6, f7]
      · obtain ⟨e0, hpre⟩ := oracleFree_succ hpre
        obtain ⟨e1, hpre⟩ := oracleFree_succ hpre
        obtain ⟨e2, hpre⟩ := oracleFree_succ hpre
        obtain ⟨e3, hpre⟩ := oracleFree_succ hpre
        obtain ⟨e4, hpre⟩ := oracleFree_succ hpre
        obtain ⟨e5, hpre⟩ := oracleFree_succ hpre
        obtain ⟨e6, hpre⟩ := oracleFree_succ hpre
        obtain ⟨e7, hpre⟩ := oracleFree_succ hpre
        have f8 : o (ctx.calls + 1 + 1 + 1 + 1 + 1 + 1 + 1 + 1) = some e := by
          rw [show ctx.calls + 1 + 1 + 1 + 1 + 1 + 1 + 1 + 1 = ctx.calls + 8 by omega]
          exact hfail
        simp only [rlcStep, assign_advice, assign_fixed, eqGuard, Except.bind,
          e0, e1, e2, e3, e4, e5, e6, e7, f8]
  | some prev =>
      have hj' : j < 10 := hj
      interval_cases j
      · simp only [rlcStep, assign_advice, Except.bind, show o ctx.calls = some e by
          simpa using hfail]
      · obtain ⟨e0, hpre⟩ := oracleFree_succ hpre
        simp only [rlcStep, assign_advice, eqGuard, Except.bind, e0, hfail]
      · obtain ⟨e0, hpre⟩ := oracleFree_succ hpre
        obtain ⟨e1, hpre⟩ := oracleFree_succ hpre
        have f2 : o (ctx.calls + 1 + 1) = some e := by
          rw [show ctx.calls + 1 + 1 = ctx.calls + 2 by omega]; exact hfail
        simp only [rlcStep, assign_advice, eqGuard, constrain_equal, Except.bind,
          e0, e1, f2]
      · obtain ⟨e0, hpre⟩ := oracleFree_succ hpre
        obtain ⟨e1, hpre⟩ := oracleFree_succ hpre
        obtain ⟨e2, hpre⟩ := oracleFree_succ hpre
        have f3 : o (ctx.calls + 1 + 1 + 1) = some e := by
          rw [show ctx.calls + 1 + 1 + 1 = ctx.calls + 3 by omega]; exact hfail
        simp only [rlcStep, assign_advice, eqGuard, constrain_equal, Except.bind,
          e0, e1, e2, f3]
      · obtain ⟨e0, hpre⟩ := oracleFree_succ hpre
        obtain ⟨e1, hpre⟩ := oracleFree_succ hpre
        obtain ⟨e2, hpre⟩ := oracleFree_succ hpre
        obtain ⟨e3, hpre⟩ := oracleFree_succ hpre
        have f4 : o (ctx.calls + 1 + 1 + 1 + 1) = some e := by
          rw [show ctx.calls + 1 + 1 + 1 + 1 = ctx.calls + 4 by omega]; exact hfail
        simp only [rlcStep, assign_advice, eqGuard, constrain_equal, Except.bind,
          e0, e1, e2, e3, f4]
      · obtain ⟨e0, hpre⟩ := oracleFree_succ hpre
        obtain ⟨e1, hpre⟩ := oracleFree_succ hpre
        obtain ⟨e2, hpre⟩ := oracleFree_succ hpre
        obtain ⟨e3, hpre⟩ := oracleFree_succ hpre
        obtain ⟨e4, hpre⟩ := oracleFree_succ hpre
        have f5 : o (ctx.calls + 1 + 1 + 1 + 1 + 1) = some e := by
          rw [show ctx.calls + 1 + 1 + 1 + 1 + 1 = ctx.calls + 5 by omega]; exact hfail
        simp only [rlcStep, assign_advice, assign_fixed, eqGuard, constrain_equal,
          Except.bind, e0, e1, e2, e3, e4, f5]
      · obtain ⟨e0, hpre⟩ := oracleFree_succ hpre
        obtain ⟨e1, hpre⟩ := oracleFree_succ hpre
        obtain ⟨e2, hpre⟩ := oracleFree_succ hpre
        obtain ⟨e3, hpre⟩ := oracleFree_succ hpre
        obtain ⟨e4, hpre⟩ := oracleFree_succ hpre
        obtain ⟨e5, hpre⟩ := oracleFree_succ hpre
        have f6 : o (ctx.calls + 1 + 1 + 1 + 1 + 1 + 1) = some e := by
          rw [show ctx.calls + 1 + 1 + 1 + 1 + 1 + 1 = ctx.calls + 6 by omega]; exact hfail
        simp only [rlcStep, assign_advice, assign_fixed, eqGuard, constrain_equal,
          Except.bind, e0, e1, e2, e3, e4, e5, f6]
      · obtain ⟨e0, hpre⟩ := oracleFree_succ hpre
        obtain ⟨e1, hpre⟩ := oracleFree_succ hpre
        obtain ⟨e2, hpre⟩ := oracleFree_succ hpre
        obtain ⟨e3, hpre⟩ := oracleFree_succ hpre
        obtain ⟨e4, hpre⟩ := oracleFree_succ hpre
        obtain ⟨e5, hpre⟩ := oracleFree_succ hpre
        obtain ⟨e6, hpre⟩ := oracleFree_succ hpre
        have f7 : o (ctx.calls + 1 + 1 + 1 + 1 + 1 + 1 + 1) = some e := by
          rw [show ctx.calls + 1 + 1 + 1 + 1 + 1 + 1 + 1 = ctx.calls + 7 by omega]
          exact hfail
        simp only [rlcStep, assign_advice, assign_fixed, eqGuard, constrain_equal,
          Except.bind, e0, e1, e2, e3, e4, e5, e6, f7]
      · obtain ⟨e0, hpre⟩ := oracleFree_succ hpre
        obtain ⟨e1, hpre⟩ := oracleFree_succ hpre
        obtain ⟨e2, hpre⟩ := oracleFree_succ hpre
        obtain ⟨e3, hpre⟩ := oracleFree_succ hpre
        obtain ⟨e4, hpre⟩ := oracleFree_succ hpre
        obtain ⟨e5, hpre⟩ := oracleFree_succ hpre
        obtain ⟨e6, hpre⟩ := oracleFree_succ hpre
        obtain ⟨e7, hpre⟩ := oracleFree_succ hpre
        have f8 : o (ctx.calls + 1 + 1 + 1 + 1 + 1 + 1 + 1 + 1) = some e := by
          rw [show ctx.calls + 1 + 1 + 1 + 1 + 1 + 1 + 1 + 1 = ctx.calls + 8 by omega]
          exact hfail
        simp only [rlcStep, assign_advice, assign_fixed, eqGuard, constrain_equal,
          Except.bind, e0, e1, e2, e3, e4, e5, e6, e7, f8]
      · obtain ⟨e0, hpre⟩ := oracleFree_succ hpre
        obtain ⟨e1, hpre⟩ := oracleFree_succ hpre
        obtain ⟨e2, hpre⟩ := oracleFree_succ hpre
        obtain ⟨e3, hpre⟩ := oracleFree_succ hpre
        obtain ⟨e4, hpre⟩ := oracleFree_succ hpre
        obtain ⟨e5, hpre⟩ := oracleFree_succ hpre
        obtain ⟨e6, hpre⟩ := oracleFree_succ hpre
        obtain ⟨e7, hpre⟩ := oracleFree_succ hpre
        obtain ⟨e8, hpre⟩ := oracleFree_succ hpre
        have f9 : o (ctx.calls + 1 + 1 + 1 + 1 + 1 + 1 + 1 + 1 + 1) = some e := by
          rw [show ctx.calls + 1 + 1 + 1 + 1 + 1 + 1 + 1 + 1 + 1 = ctx.calls + 9 by omega]
          exact hfail
        simp only [rlcStep, assign_advice, assign_fixed, eqGuard, constrain_equal,
          Except.bind, e0, e1, e2, e3, e4, e5, e6, e7, e8, f9]

/-- C1: on `d ≥ 2` terms the gadget returns `Ok` of a cell whose
assigned value is `Σ_{i=0}^{d-1} r^i * terms[i]`, computed by the
right-to-left Horner recursion (seed with the last element, then
`acc = next + r * acc`); on `terms = [3, 5, 7]`, `r = 2` this value
is `41`. -/
theorem rlc_value {F : Type} [Field F] (cfg : AuxConfig) (ctx : RegionCtx F)
    (terms : List F) (r : F) (h : 2 ≤ terms.length) :
    ∃ c ctx', random_linear_combination happy cfg ctx terms r = .ok c ctx' ∧
      c.val = ∑ i in Finset.range terms.length, r ^ i * terms.getD i 0 :=
  rlc_happy_spec cfg ctx terms r h

theorem rlc_value_witness :
    (2 ≤ ([3, 5, 7] : List (ZMod 101)).length) ∧
    (∑ i in Finset.range 3, (2 : ZMod 101) ^ i * [(3 : ZMod 101), 5, 7].getD i 0 = 41) ∧
    ∃ c ctx', random_linear_combination happy cfg2 (ctx0 (ZMod 101)) [3, 5, 7] 2 = .ok c ctx' ∧
      c.val = ∑ i in Finset.range 3, (2 : ZMod 101) ^ i * [(3 : ZMod 101), 5, 7].getD i 0 :=
  ⟨by decide, by decide, rlc_value cfg2 (ctx0 (ZMod 101)) [3, 5, 7] 2 (by decide)⟩

/-- Unfolding one loop iteration whose step fails. -/
theorem rlcLoop_succ_err {F : Type} [Field F] (o : Oracle) (cfg : AuxConfig)
    (terms : List F) (r : F) (n i : Nat) (out : Option (ACell F)) (ctx : RegionCtx F)
    (rhsVal : F) (e : Err)
    (hr : (if i = 1 then some (terms.getD (terms.length - i) 0)
           else Option.map (fun c => c.val) out) = some rhsVal)
    (hstep : rlcStep o cfg r (terms.getD (terms.length - 1 - i) 0) rhsVal out ctx =
      .error e) :
    rlcLoop o cfg terms r (n + 1) i out ctx = .fail e := by
  rw [rlcLoop]
  simp only [hr, hstep]

/-- Unfolding one loop iteration whose step succeeds. -/
theorem rlcLoop_succ_ok {F : Type} [Field F] (o : Oracle) (cfg : AuxConfig)
    (terms : List F) (r : F) (n i : Nat) (out : Option (ACell F)) (ctx : RegionCtx F)
    (rhsVal : F) (c : ACell F) (ctx1 : RegionCtx F)
    (hr : (if i = 1 then some (terms.getD (terms.length - i) 0)
           else Option.map (fun c => c.val) out) = some rhsVal)
    (hstep : rlcStep o cfg r (terms.getD (terms.length - 1 - i) 0) rhsVal out ctx =
      .ok (c, ctx1)) :
    rlcLoop o cfg terms r (n + 1) i out ctx =
      rlcLoop o cfg terms r n (i + 1) (some c) ctx1 := by
  rw [rlcLoop]
  simp only [hr, hstep]

/-- Unfolding one loop iteration whose accumulator operand is absent:
the `unwrap` panics. -/
theorem rlcLoop_succ_none {F : Type} [Field F] (o : Oracle) (cfg : AuxConfig)
    (terms : List F) (r : F) (n i : Nat) (out : Option (ACell F)) (ctx : RegionCtx F)
    (hr : (if i = 1 then some (terms.getD (terms.length - i) 0)
           else Option.map (fun c => c.val) out) = none) :
    rlcLoop o cfg terms r (n + 1) i out ctx = .panic := by
  rw [rlcLoop]
  simp only [hr]

/-- Every backend call of the run succeeding, the gadget loop behaves
exactly as under the all-success oracle. -/
theorem rlcLoop_free_eq_happy {F : Type} [Field F] (o : Oracle) (cfg : AuxConfig)
    (terms : List F) (r : F) :
    ∀ (n i : Nat) (out : Option (ACell F)) (ctx : RegionCtx F),
      OracleFree o ctx.calls (loopCalls n out.isSome) →
      rlcLoop o cfg terms r n i out ctx = rlcLoop happy cfg terms r n i out ctx := by
  intro n
  induction n with
  | zero =>
      intro i out ctx h
      rfl
  | succ n ih =>
      intro i out ctx h
      obtain ⟨hstep, hrest⟩ := oracleFree_split (stepCalls out.isSome) (loopCalls n true) h
      have hsome : (∃ rhsVal, (if i = 1 then some (terms.getD (terms.length - i) 0)
            else Option.map (fun c => c.val) out) = some rhsVal) ∨
          (if i = 1 then some (terms.getD (terms.length - i) 0)
            else Option.map (fun c => c.val) out) = none := by
        by_cases hi : i = 1
        · exact Or.inl ⟨terms.getD (terms.length - i) 0, if_pos hi⟩
        · cases out with
          | none => exact Or.inr (by rw [if_neg hi]; rfl)
          | some prev => exact Or.inl ⟨prev.val, by rw [if_neg hi]; rfl⟩
      have key : ∀ rhsVal, (if i = 1 then some (terms.getD (terms.length - i) 0)
            else Option.map (fun c => c.val) out) = some rhsVal →
          rlcLoop o cfg terms r (n + 1) i out ctx =
            rlcLoop happy cfg terms r (n + 1) i out ctx := by
        intro rhsVal hr
        obtain ⟨ctx1, hsh, -, hcalls⟩ := rlcStep_happy cfg r
          (terms.getD (terms.length - 1 - i) 0) rhsVal out ctx
        have hso : rlcStep o cfg r (terms.getD (terms.length - 1 - i) 0) rhsVal out ctx =
            .ok (⟨cfg.state.getD 1 0, ctx.offset,
              terms.getD (terms.length - 1 - i) 0 + r * rhsVal⟩, ctx1) := by
          rw [rlcStep_free_eq_happy o cfg r _ rhsVal out ctx hstep]
          exact hsh
        rw [rlcLoop_succ_ok o cfg terms r n i out ctx rhsVal _ ctx1 hr hso,
          rlcLoop_succ_ok happy cfg terms r n i out ctx rhsVal _ ctx1 hr hsh]
        exact ih (i + 1) (some _) ctx1 (by rw [hcalls]; exact hrest)
      rcases hsome with ⟨rhsVal, hr⟩ | hr
      · exact key rhsVal hr
      · rw [rlcLoop_succ_none o cfg terms r n i out ctx hr,
          rlcLoop_succ_none happy cfg terms r n i out ctx hr]

/-- If the first failing backend call of the loop is call `j` with
error `e`, the loop propagates exactly that error. -/
theorem rlcLoop_win_err {F : Type} [Field F] (o : Oracle) (cfg : AuxConfig)
    (terms : List F) (r : F) :
    ∀ (n i : Nat) (out : Option (ACell F)) (ctx : RegionCtx F) (j : Nat) (e : Err),
      ((i = 1 ∧ out = none) ∨ out.isSome) →
      j < loopCalls n out.isSome → OracleFree o ctx.calls j →
      o (ctx.calls + j) = some e →
      rlcLoop o cfg terms r n i out ctx = .fail e := by
  intro n
  induction n with
  | zero =>
      intro i out ctx j e hinv hj hpre hfail
      simp [loopCalls] at hj
  | succ n ih =>
      intro i out ctx j e hinv hj hpre hfail
      have hsome : ∃ rhsVal, (if i = 1 then some (terms.getD (terms.length - i) 0)
          else Option.map (fun c => c.val) out) = some rhsVal := by
        rcases hinv with ⟨h1, rfl⟩ | hs
        · exact ⟨terms.getD (terms.length - i) 0, if_pos h1⟩
        · obtain ⟨prev, rfl⟩ := Option.isSome_iff_exists.mp hs
          by_cases hi : i = 1
          · exact ⟨terms.getD (terms.length - i) 0, if_pos hi⟩
          · exact ⟨prev.val, by rw [if_neg hi]; rfl⟩
      obtain ⟨rhsVal, hr⟩ := hsome
      by_cases hc : j < stepCalls out.isSome
      · exact rlcLoop_succ_err o cfg terms r n i out ctx rhsVal e hr
          (rlcStep_win_err o cfg r _ rhsVal out ctx j e hc hpre hfail)
      · have hfree : OracleFree o ctx.calls (stepCalls out.isSome) :=
          fun k hk => hpre k (by omega)
        obtain ⟨ctx1, hsh, -, hcalls⟩ := rlcStep_happy cfg r
          (terms.getD (terms.length - 1 - i) 0) rhsVal out ctx
        have hso : rlcStep o cfg r (terms.getD (terms.length - 1 - i) 0) rhsVal out ctx =
            .ok (⟨cfg.state.getD 1 0, ctx.offset,
              terms.getD (terms.length - 1 - i) 0 + r * rhsVal⟩, ctx1) := by
          rw [rlcStep_free_eq_happy o cfg r _ rhsVal out ctx hfree]
          exact hsh
        rw [rlcLoop_succ_ok o cfg terms r n i out ctx rhsVal _ ctx1 hr hso]
        have hl : loopCalls (n + 1) out.isSome = stepCalls out.isSome + loopCalls n true := rfl
        obtain ⟨-, hrest⟩ := oracleFree_split (stepCalls out.isSome)
          (j - stepCalls out.isSome)
          (by rwa [show stepCalls out.isSome + (j - stepCalls out.isSome) = j by omega])
        refine ih (i + 1) (some _) ctx1 (j - stepCalls out.isSome) e (Or.inr rfl) ?_
          (by rw [hcalls]; exact hrest)
          (by
            rw [hcalls, show ctx.calls + stepCalls out.isSome + (j - stepCalls out.isSome)
              = ctx.calls + j by omega]
            exact hfail)
        rw [hl] at hj
        simp only [Option.isSome_some]
        omega

/-- Every backend call of the run succeeding, the gadget behaves
exactly as under the all-success oracle. -/
theorem rlc_free_eq_happy {F : Type} [Field F] (o : Oracle) (cfg : AuxConfig)
    (ctx : RegionCtx F) (terms : List F) (r : F)
    (h : OracleFree o ctx.calls (loopCalls (terms.length - 1) false)) :
    random_linear_combination o cfg ctx terms r =
      random_linear_combination happy cfg ctx terms r := by
  unfold random_linear_combination
  rw [rlcLoop_free_eq_happy o cfg terms r (terms.length - 1) 1 none ctx h]

/-- C9: on `d ≥ 2` terms the gadget returns `Ok` exactly when every one
of the `loopCalls (d-1)` backend calls it makes (advice and fixed
assignments and equality constraints) succeeds; and whenever the first
failing backend call fails with error `e`, the gadget returns exactly
that error and yields no cell. -/
theorem rlc_error_prop {F : Type} [Field F] (o : Oracle) (cfg : AuxConfig)
    (ctx : RegionCtx F) (terms : List F) (r : F) (h2 : 2 ≤ terms.length) :
    ((∃ c ctx', random_linear_combination o cfg ctx terms r = .ok c ctx') ↔
      OracleFree o ctx.calls (loopCalls (terms.length - 1) false)) ∧
    (∀ j e, j < loopCalls (terms.length - 1) false → OracleFree o ctx.calls j →
      o (ctx.calls + j) = some e →
      random_linear_combination o cfg ctx terms r = .fail e) := by
  have hfailthm : ∀ j e, j < loopCalls (terms.length - 1) false →
      OracleFree o ctx.calls j → o (ctx.calls + j) = some e →
      random_linear_combination o cfg ctx terms r = .fail e := by
    intro j e hj hpre hfail
    have hx := rlcLoop_win_err o cfg terms r (terms.length - 1) 1 none ctx j e
      (Or.inl ⟨rfl, rfl⟩) hj hpre hfail
    unfold random_linear_combination
    rw [hx]
  refine ⟨⟨?_, ?_⟩, hfailthm⟩
  · rintro ⟨c, ctx', hok⟩
    by_contra hnf
    unfold OracleFree at hnf
    push_neg at hnf
    obtain ⟨k, hk, hkfail⟩ := hnf
    have hex : ∃ j, (o (ctx.calls + j)).isSome = true :=
      ⟨k, Option.ne_none_iff_isSome.mp hkfail⟩
    have hjk : Nat.find hex ≤ k := Nat.find_min' hex (Option.ne_none_iff_isSome.mp hkfail)
    obtain ⟨e, he⟩ := Option.isSome_iff_exists.mp (Nat.find_spec hex)
    have hpre : OracleFree o ctx.calls (Nat.find hex) := by
      intro l hl
      have hm := Nat.find_min hex hl
      exact Option.not_isSome_iff_eq_none.mp (by simpa using hm)
    have hfl := hfailthm (Nat.find hex) e (by omega) hpre he
    rw [hfl] at hok
    exact absurd hok (by simp)
  · intro hfree
    rw [rlc_free_eq_happy o cfg ctx terms r hfree]
    obtain ⟨c, cx, hok, -⟩ := rlc_happy_spec cfg ctx terms r h2
    exact ⟨c, cx, hok⟩

theorem rlc_error_prop_witness :
    (2 ≤ ([3, 5, 7] : List (ZMod 101)).length) ∧
    (∃ c ctx', random_linear_combination happy cfg2 (ctx0 (ZMod 101)) [3, 5, 7] 2 =
      .ok c ctx') ∧
    random_linear_combination (fun n => if n = 3 then some 7 else none) cfg2
      (ctx0 (ZMod 101)) [3, 5, 7] 2 = .fail 7 :=
  ⟨by decide,
   ((rlc_error_prop happy cfg2 (ctx0 (ZMod 101)) [3, 5, 7] 2 (by decide)).1).mpr
     (fun k _ => rfl),
   (rlc_error_prop (fun n => if n = 3 then some 7 else none) cfg2 (ctx0 (ZMod 101))
       [3, 5, 7] 2 (by decide)).2 3 7 (by decide)
     (by intro k hk; interval_cases k <;> rfl) (by rfl)⟩

end Sirius
